import Mathlib

/-!
Verification development for the video_auto repository: a shallow embedding of
the subtitle parser (`parseSrt`), the SRT serializer (`generateSRT` /
`formatSRTTime`), the per-request temp-path scheme, the ffmpeg
complex-filter builder, the font registry of `route.ts`, and the request
pipeline (staging, B-roll resolution, encode, cleanup) of
`app/api/process/route.ts`.  JS strings are modelled as `List Char`.
-/

namespace VideoAuto

abbrev Str := List Char

/-- Single-quote character (appears inside ffmpeg filter strings). -/
def sq : Char := Char.ofNat 39

/-! ## Decimal rendering of numbers (JS template `${n}` on a Nat-valued value) -/

/-- Fuel-driven decimal rendering; fuel `n+1` always suffices for `n`. -/
def natReprAux : Nat → Nat → Str
  | 0, _ => []
  | fuel + 1, n =>
    if n < 10 then [Nat.digitChar n]
    else natReprAux fuel (n / 10) ++ [Nat.digitChar (n % 10)]

/-- Decimal rendering of a natural number, as JS `${n}` produces. -/
def natRepr (n : Nat) : Str := natReprAux (n + 1) n

/-- Reads a digit string back as a number (left inverse used for injectivity). -/
def digitsToNat (l : Str) : Nat := l.foldl (fun a c => 10 * a + (c.toNat - 48)) 0

theorem digitChar_isDigit {n : Nat} (h : n < 10) : (Nat.digitChar n).isDigit = true := by
  interval_cases n <;> decide

theorem digitChar_toNat {n : Nat} (h : n < 10) : (Nat.digitChar n).toNat - 48 = n := by
  interval_cases n <;> decide

theorem natReprAux_digits {fuel n : Nat} (h : n < fuel) :
    ∀ c ∈ natReprAux fuel n, c.isDigit = true := by
  induction fuel generalizing n with
  | zero => omega
  | succ fuel ih =>
    intro c hc
    unfold natReprAux at hc
    by_cases h10 : n < 10
    · simp [h10] at hc
      subst hc; exact digitChar_isDigit h10
    · simp [h10, List.mem_append] at hc
      rcases hc with hc | hc
      · exact ih (by omega) c hc
      · subst hc; exact digitChar_isDigit (Nat.mod_lt _ (by omega))

theorem natReprAux_ne_nil {fuel n : Nat} (h : n < fuel) : natReprAux fuel n ≠ [] := by
  cases fuel with
  | zero => omega
  | succ fuel =>
    unfold natReprAux
    by_cases h10 : n < 10 <;> simp [h10]

theorem natRepr_digits (n : Nat) : ∀ c ∈ natRepr n, c.isDigit = true :=
  natReprAux_digits (Nat.lt_succ_self n)

theorem natRepr_ne_nil (n : Nat) : natRepr n ≠ [] :=
  natReprAux_ne_nil (Nat.lt_succ_self n)

theorem foldl_digits_append (a : Nat) (l : Str) (c : Char) :
    List.foldl (fun a c => 10 * a + (c.toNat - 48)) a (l ++ [c])
      = 10 * List.foldl (fun a c => 10 * a + (c.toNat - 48)) a l + (c.toNat - 48) := by
  simp [List.foldl_append]

theorem digitsToNat_natReprAux {fuel n : Nat} (h : n < fuel) :
    digitsToNat (natReprAux fuel n) = n := by
  induction fuel generalizing n with
  | zero => omega
  | succ fuel ih =>
    unfold natReprAux
    by_cases h10 : n < 10
    · simp [h10, digitsToNat, digitChar_toNat h10]
    · simp only [h10, if_false]
      have hrec : n / 10 < fuel := by omega
      have := ih hrec
      simp only [digitsToNat] at this ⊢
      rw [foldl_digits_append, this, digitChar_toNat (Nat.mod_lt _ (by omega))]
      omega

theorem digitsToNat_natRepr (n : Nat) : digitsToNat (natRepr n) = n :=
  digitsToNat_natReprAux (Nat.lt_succ_self n)

theorem natRepr_injective {a b : Nat} (h : natRepr a = natRepr b) : a = b := by
  have := congrArg digitsToNat h
  rwa [digitsToNat_natRepr, digitsToNat_natRepr] at this

/-! ## Generic list helpers for the path and parsing proofs -/

theorem takeWhile_all_append {p : Char → Bool} {a : Str} (ha : ∀ c ∈ a, p c = true)
    {b : Char} (hb : p b = false) (r : Str) :
    (a ++ b :: r).takeWhile p = a := by
  induction a with
  | nil => simp [List.takeWhile, hb]
  | cons x xs ih =>
    have hx : p x = true := ha x (by simp)
    simp [List.takeWhile, hx, ih (fun c hc => ha c (by simp [hc]))]

theorem dropWhile_all_append {p : Char → Bool} {a : Str} (ha : ∀ c ∈ a, p c = true)
    {b : Char} (hb : p b = false) (r : Str) :
    (a ++ b :: r).dropWhile p = b :: r := by
  induction a with
  | nil => simp [List.dropWhile, hb]
  | cons x xs ih =>
    have hx : p x = true := ha x (by simp)
    simp [List.dropWhile, hx, ih (fun c hc => ha c (by simp [hc]))]

theorem append_left_cancel' {a b c : Str} (h : a ++ b = a ++ c) : b = c := by
  induction a with
  | nil => simpa using h
  | cons x xs ih => exact ih (by simpa using h)

/-! ## The subtitle parser `parseSrt` (route file, final version)

The source scans the payload with the global regex
`(\d+)\n(\d\d:\d\d:\d\d,\d\d\d) --> (\d\d:\d\d:\d\d,\d\d\d)\n([\s\S]*?(?=\n\n|\n*$))`
and pushes `{id, start_time, end_time, text.replace(/\n/g,' ')}` for each match.
The embedding implements exactly this match procedure:
a match attempt at a position takes the maximal digit run (backtracking cannot
help, since the run must be followed by a newline), the two fixed-shape
timecodes separated by the literal arrow, and then the lazy text group, which
takes the shortest prefix after which the rest starts with two newlines or
consists of newlines only. -/

structure SrtSegment where
  id : Str
  start_time : Str
  end_time : Str
  text : Str
deriving DecidableEq, Repr

/-- Shape test for the regex timecode group `\d\d:\d\d:\d\d,\d\d\d`. -/
def isTSshape : Str → Bool
  | [h0, h1, c1, m0, m1, c2, s0, s1, cm, x0, x1, x2] =>
    h0.isDigit && h1.isDigit && (c1 == ':') && m0.isDigit && m1.isDigit &&
    (c2 == ':') && s0.isDigit && s1.isDigit && (cm == ',') &&
    x0.isDigit && x1.isDigit && x2.isDigit
  | _ => false

/-- Stop condition of the lookahead `(?=\n\n|\n*$)` at a given rest. -/
def stopCond (l : Str) : Bool :=
  match l with
  | '\n' :: '\n' :: _ => true
  | _ => l.all (· == '\n')

/-- Lazy group `[\s\S]*?` with the lookahead: shortest prefix whose rest stops. -/
def lazyText : Str → Str × Str
  | [] => ([], [])
  | c :: cs =>
    if stopCond (c :: cs) then ([], c :: cs)
    else
      let (t, r) := lazyText cs
      (c :: t, r)

/-- Replacement `text.replace(/\n/g, ' ')` applied to the matched text group. -/
def nl2sp (c : Char) : Char := if c = '\n' then ' ' else c

/-- One match attempt of the block regex at the current position. -/
def tryMatch (l : Str) : Option (SrtSegment × Str) :=
  let ds := l.takeWhile Char.isDigit
  if ds.isEmpty then none
  else
    match l.dropWhile Char.isDigit with
    | '\n' :: r2 =>
      let ts1 := r2.take 12
      if isTSshape ts1 then
        let r3 := r2.drop 12
        if r3.take 5 = " --> ".data then
          let ts2 := (r3.drop 5).take 12
          if isTSshape ts2 then
            match (r3.drop 5).drop 12 with
            | '\n' :: r4 =>
              let (t, r5) := lazyText r4
              some ({ id := ds, start_time := ts1, end_time := ts2,
                      text := t.map nl2sp }, r5)
            | _ => none
          else none
        else none
      else none
    | _ => none

/-- The `exec` loop: attempt a match at each position, resuming after each
match at its end (the lookahead consumes nothing).  Fuel `|s| + 1` suffices
since every step consumes at least one character. -/
def parseLoopFuel : Nat → Str → List SrtSegment
  | 0, _ => []
  | _ + 1, [] => []
  | fuel + 1, c :: cs =>
    match tryMatch (c :: cs) with
    | some (seg, rest) => seg :: parseLoopFuel fuel rest
    | none => parseLoopFuel fuel cs

/-- The route file's `parseSrt`. -/
def parseSrt (s : Str) : List SrtSegment := parseLoopFuel (s.length + 1) s

/-! ## The serializer `generateSRT` / `formatSRTTime` (gemini.ts) -/

/-- `formatSRTTime`: append `,000` when the string holds no comma
(the source's `timeStr.includes(',')`). -/
def formatSRTTime (t : Str) : Str :=
  if ',' ∈ t then t else t ++ ",000".data

/-- One serialized block of `generateSRT` for zero-based position `index`,
the template literal `${index+1}\n${start} --> ${end}\n${text}\n\n`. -/
def srtBlock (oneBasedIndex : Nat) (s : SrtSegment) : Str :=
  natRepr oneBasedIndex ++ "\n".data ++ formatSRTTime s.start_time ++ " --> ".data ++
    formatSRTTime s.end_time ++ "\n".data ++ s.text ++ "\n\n".data

/-- Serialized blocks starting at a given one-based index. -/
def srtBlocksFrom (k : Nat) : List SrtSegment → Str
  | [] => []
  | s :: rest => srtBlock k s ++ srtBlocksFrom (k + 1) rest

/-- `generateSRT`: `segments.map((s, i) => block).join('')`. -/
def generateSRT (segs : List SrtSegment) : Str := srtBlocksFrom 1 segs

/-! ## Well-formedness of every segment the parser emits -/

theorem nl2sp_ne_newline (c : Char) : nl2sp c ≠ '\n' := by
  unfold nl2sp
  split
  · decide
  · assumption

theorem newline_not_mem_map_nl2sp (t : Str) : '\n' ∉ t.map nl2sp := by
  intro h
  rcases List.mem_map.1 h with ⟨a, _, ha⟩
  exact nl2sp_ne_newline a ha

theorem tryMatch_wf {l : Str} {seg : SrtSegment} {rest : Str}
    (h : tryMatch l = some (seg, rest)) :
    isTSshape seg.start_time = true ∧ isTSshape seg.end_time = true ∧
      '\n' ∉ seg.text := by
  simp only [tryMatch] at h
  split at h
  · exact absurd h (by simp)
  · split at h
    · split at h
      · split at h
        · split at h
          · split at h
            · simp only [Option.some.injEq, Prod.mk.injEq] at h
              obtain ⟨hseg, -⟩ := h
              subst hseg
              refine ⟨by assumption, by assumption, newline_not_mem_map_nl2sp _⟩
            · exact absurd h (by simp)
          · exact absurd h (by simp)
        · exact absurd h (by simp)
      · exact absurd h (by simp)
    · exact absurd h (by simp)

theorem parseLoopFuel_wf :
    ∀ (fuel : Nat) (l : Str) (seg : SrtSegment), seg ∈ parseLoopFuel fuel l →
      isTSshape seg.start_time = true ∧ isTSshape seg.end_time = true ∧
        '\n' ∉ seg.text := by
  intro fuel
  induction fuel with
  | zero => intro l seg h; simp [parseLoopFuel] at h
  | succ fuel ih =>
    intro l seg h
    cases l with
    | nil => simp [parseLoopFuel] at h
    | cons c cs =>
      simp only [parseLoopFuel] at h
      cases htm : tryMatch (c :: cs) with
      | none => rw [htm] at h; exact ih cs seg h
      | some pr =>
        obtain ⟨s, r⟩ := pr
        rw [htm] at h
        simp only [List.mem_cons] at h
        rcases h with h | h
        · subst h; exact tryMatch_wf htm
        · exact ih r seg h

theorem parseSrt_wf {p : Str} {seg : SrtSegment} (h : seg ∈ parseSrt p) :
    isTSshape seg.start_time = true ∧ isTSshape seg.end_time = true ∧
      '\n' ∉ seg.text :=
  parseLoopFuel_wf _ _ _ h

/-! ## Timecode normalization (claim C9) -/

/-- A textual timecode accepted on input: `HH:MM:SS` or `HH:MM:SS,mmm`. -/
def isHMSshape : Str → Bool
  | [h0, h1, c1, m0, m1, c2, s0, s1] =>
    h0.isDigit && h1.isDigit && (c1 == ':') && m0.isDigit && m1.isDigit &&
    (c2 == ':') && s0.isDigit && s1.isDigit
  | _ => false

/-- Valid input timecode: either textual encoding of the data model. -/
def isTimecode (t : Str) : Bool := isHMSshape t || isTSshape t

theorem formatSRTTime_idem (t : Str) :
    formatSRTTime (formatSRTTime t) = formatSRTTime t := by
  by_cases h : ',' ∈ t
  · simp [formatSRTTime, h]
  · have h' : ',' ∈ t ++ ",000".data :=
      List.mem_append.2 (Or.inr (by decide))
    simp [formatSRTTime, h, h']

/-- Numeric reading of a canonical `HH:MM:SS,mmm` timecode, in milliseconds. -/
def tsMillis : Str → Nat
  | [h0, h1, _, m0, m1, _, s0, s1, _, x0, x1, x2] =>
    (((h0.toNat - 48) * 10 + (h1.toNat - 48)) * 3600 +
     ((m0.toNat - 48) * 10 + (m1.toNat - 48)) * 60 +
     ((s0.toNat - 48) * 10 + (s1.toNat - 48))) * 1000 +
    (x0.toNat - 48) * 100 + (x1.toNat - 48) * 10 + (x2.toNat - 48)
  | _ => 0

/-- C9: timecode normalization is idempotent — `formatSRTTime` applied twice
to a valid timecode string equals one application. -/
theorem formatSRTTime_idempotent (t : Str) (_h : isTimecode t = true) :
    formatSRTTime (formatSRTTime t) = formatSRTTime t :=
  formatSRTTime_idem t

/-- Witness for C9 at the concrete valid timecode `00:00:05`. -/
theorem formatSRTTime_idempotent_witness :
    isTimecode "00:00:05".data = true ∧
      formatSRTTime (formatSRTTime "00:00:05".data) = formatSRTTime "00:00:05".data :=
  ⟨by decide, formatSRTTime_idempotent "00:00:05".data (by decide)⟩

/-! ## Claim C2: the parser never fails

The spec promises `parse` fails with `MalformedSubtitle` on a block missing a
timecode line or with an unordered timecode pair.  `parseSrt` is a total
regex scan: blocks without a well-formed timecode line are silently skipped
and unordered pairs are returned as ordinary segments. -/

/-- Counterexample for C2: on a payload whose only block has its timecode pair
unordered (start strictly after end), `parseSrt` does not fail — it returns a
one-element segment list carrying the unordered pair unchanged; and on a
payload whose block is missing the timecode line it returns the empty segment
list rather than an error. -/
theorem parseSrt_accepts_malformed :
    parseSrt "1\n00:00:05,000 --> 00:00:01,000\nhi".data =
      [⟨"1".data, "00:00:05,000".data, "00:00:01,000".data, "hi".data⟩] ∧
    tsMillis "00:00:01,000".data < tsMillis "00:00:05,000".data ∧
    parseSrt "1\nhello".data = [] := by
  refine ⟨by decide, by decide, by decide⟩

/-- C2 amended: the parser never fails; a block missing a well-formed timecode
line produces no segment (every returned segment's timecodes match the
`HH:MM:SS,mmm` shape), and the timecode pair of a returned segment is not
checked for order. -/
theorem parseSrt_total_shape (input : Str) (seg : SrtSegment)
    (h : seg ∈ parseSrt input) :
    isTSshape seg.start_time = true ∧ isTSshape seg.end_time = true :=
  ⟨(parseSrt_wf h).1, (parseSrt_wf h).2.1⟩

/-- Witness for the amended C2 on a concrete well-formed payload. -/
theorem parseSrt_total_shape_witness :
    isTSshape (SrtSegment.mk "1".data "00:00:00,000".data "00:00:02,000".data
      "hi".data).start_time = true ∧
    isTSshape (SrtSegment.mk "1".data "00:00:00,000".data "00:00:02,000".data
      "hi".data).end_time = true :=
  parseSrt_total_shape "1\n00:00:00,000 --> 00:00:02,000\nhi".data _ (by decide)


/-! ## Round-trip machinery (claim C7) -/

theorem isTSshape_length {t : Str} (h : isTSshape t = true) : t.length = 12 := by
  unfold isTSshape at h
  split at h
  · simp
  · exact absurd h (by simp)

theorem isTSshape_comma {t : Str} (h : isTSshape t = true) : ',' ∈ t := by
  unfold isTSshape at h
  split at h
  · simp only [Bool.and_eq_true, beq_iff_eq] at h
    simp_all
  · exact absurd h (by simp)

theorem formatSRTTime_of_shape {t : Str} (h : isTSshape t = true) :
    formatSRTTime t = t := by
  simp [formatSRTTime, isTSshape_comma h]

theorem map_nl2sp_id {t : Str} (h : '\n' ∉ t) : t.map nl2sp = t := by
  induction t with
  | nil => rfl
  | cons c cs ih =>
    have hc : c ≠ '\n' := fun e => h (by simp [e])
    simp only [List.map_cons, ih (fun m => h (by simp [m]))]
    congr 1
    simp [nl2sp, hc]

theorem stopCond_nn (r : Str) : stopCond ('\n' :: '\n' :: r) = true := by
  simp [stopCond]

theorem stopCond_head_false {c : Char} (x : Str) (hc : c ≠ '\n') :
    stopCond (c :: x) = false := by
  simp [stopCond, List.take, hc]

theorem lazyText_spec {text : Str} (ht : '\n' ∉ text) (rest : Str) :
    lazyText (text ++ '\n' :: '\n' :: rest) = (text, '\n' :: '\n' :: rest) := by
  induction text with
  | nil => simp [lazyText, stopCond_nn]
  | cons c cs ih =>
    have hc : c ≠ '\n' := fun e => ht (by simp [e])
    have ih' := ih (fun m => ht (by simp [m]))
    simp only [List.cons_append, lazyText, stopCond_head_false _ hc]
    simp [ih']

theorem tryMatch_block {k : Nat} {ts1 ts2 text : Str} (rest : Str)
    (h1 : isTSshape ts1 = true) (h2 : isTSshape ts2 = true) (ht : '\n' ∉ text) :
    tryMatch (natRepr k ++ '\n' ::
        (ts1 ++ ' ' :: '-' :: '-' :: '>' :: ' ' ::
          (ts2 ++ '\n' :: (text ++ '\n' :: '\n' :: rest))))
      = some (⟨natRepr k, ts1, ts2, text⟩, '\n' :: '\n' :: rest) := by
  have hdig := natRepr_digits k
  have hne := natRepr_ne_nil k
  have e1 := takeWhile_all_append hdig (show Char.isDigit '\n' = false by decide)
    (ts1 ++ ' ' :: '-' :: '-' :: '>' :: ' ' :: (ts2 ++ '\n' :: (text ++ '\n' :: '\n' :: rest)))
  have e2 := dropWhile_all_append hdig (show Char.isDigit '\n' = false by decide)
    (ts1 ++ ' ' :: '-' :: '-' :: '>' :: ' ' :: (ts2 ++ '\n' :: (text ++ '\n' :: '\n' :: rest)))
  have hlen1 := isTSshape_length h1
  have hlen2 := isTSshape_length h2
  simp only [tryMatch, e1, e2]
  rw [List.take_left' hlen1, List.drop_left' hlen1]
  have hemp : (natRepr k).isEmpty = false := by
    cases hcase : natRepr k
    · exact absurd hcase hne
    · rfl
  simp only [hemp, Bool.false_eq_true, if_false, h1, if_true]
  have harrow : List.take 5 (' ' :: '-' :: '-' :: '>' :: ' ' :: (ts2 ++ '\n' :: (text ++ '\n' :: '\n' :: rest))) = " --> ".data := rfl
  have hdrop5 : List.drop 5 (' ' :: '-' :: '-' :: '>' :: ' ' :: (ts2 ++ '\n' :: (text ++ '\n' :: '\n' :: rest))) = ts2 ++ '\n' :: (text ++ '\n' :: '\n' :: rest) := rfl
  simp only [harrow, if_true, hdrop5]
  rw [List.take_left' hlen2, List.drop_left' hlen2]
  simp only [h2, if_true, lazyText_spec ht, map_nl2sp_id ht]

theorem tryMatch_newline (r : Str) : tryMatch ('\n' :: r) = none := by
  simp [tryMatch, List.takeWhile]

/-- Renumbering that `generateSRT` performs on the `id` field. -/
def renumFrom (k : Nat) : List SrtSegment → List SrtSegment
  | [] => []
  | s :: rest => ⟨natRepr k, s.start_time, s.end_time, s.text⟩ :: renumFrom (k + 1) rest

theorem srtBlocksFrom_length (k : Nat) (segs : List SrtSegment) :
    3 * segs.length ≤ (srtBlocksFrom k segs).length := by
  induction segs generalizing k with
  | nil => simp [srtBlocksFrom]
  | cons s ss ih =>
    have hb : 3 ≤ (srtBlock k s).length := by
      have h5 : (" --> ".data).length = 5 := rfl
      simp [srtBlock, List.length_append, h5]
      omega
    have := ih (k + 1)
    simp only [srtBlocksFrom, List.length_append, List.length_cons]
    omega

theorem parseLoop_blocks (segs : List SrtSegment) :
    ∀ k fuel, (∀ s ∈ segs, isTSshape s.start_time = true ∧
        isTSshape s.end_time = true ∧ '\n' ∉ s.text) →
      3 * segs.length + 1 ≤ fuel →
      parseLoopFuel fuel (srtBlocksFrom k segs) = renumFrom k segs := by
  induction segs with
  | nil =>
    intro k fuel _ hfuel
    obtain ⟨g, rfl⟩ : ∃ g, fuel = g + 1 := ⟨fuel - 1, by omega⟩
    simp [srtBlocksFrom, renumFrom, parseLoopFuel]
  | cons s ss ih =>
    intro k fuel hwf hfuel
    obtain ⟨g, rfl⟩ : ∃ g, fuel = g + 3 := ⟨fuel - 3, by simp at hfuel; omega⟩
    obtain ⟨hs1, hs2, hs3⟩ := hwf s (by simp)
    have hb : srtBlock k s ++ srtBlocksFrom (k + 1) ss =
        natRepr k ++ '\n' ::
          (s.start_time ++ ' ' :: '-' :: '-' :: '>' :: ' ' ::
            (s.end_time ++ '\n' :: (s.text ++ '\n' :: '\n' :: srtBlocksFrom (k + 1) ss))) := by
      simp [srtBlock, formatSRTTime_of_shape hs1, formatSRTTime_of_shape hs2,
        List.append_assoc]
    obtain ⟨d, ds, hd⟩ : ∃ d ds, natRepr k = d :: ds := by
      cases hcase : natRepr k
      · exact absurd hcase (natRepr_ne_nil k)
      · exact ⟨_, _, rfl⟩
    have hcons : srtBlock k s ++ srtBlocksFrom (k + 1) ss =
        d :: (ds ++ '\n' ::
          (s.start_time ++ ' ' :: '-' :: '-' :: '>' :: ' ' ::
            (s.end_time ++ '\n' :: (s.text ++ '\n' :: '\n' :: srtBlocksFrom (k + 1) ss)))) := by
      rw [hb, hd]; rfl
    have htm := tryMatch_block (k := k) (srtBlocksFrom (k + 1) ss) hs1 hs2 hs3
    rw [hd] at htm
    simp only [List.cons_append] at htm
    simp only [srtBlocksFrom, hcons, parseLoopFuel, htm, tryMatch_newline]
    rw [ih (k + 1) g (fun t htmem => hwf t (by simp [htmem])) (by simp at hfuel; omega)]
    simp [renumFrom, hd]

/-- Projection of a segment to the data the round-trip claim compares:
timecodes and text (the index line is ignored for business logic). -/
def segData (s : SrtSegment) : Str × Str × Str := (s.start_time, s.end_time, s.text)

theorem renumFrom_segData (k : Nat) (segs : List SrtSegment) :
    (renumFrom k segs).map segData = segs.map segData := by
  induction segs generalizing k with
  | nil => rfl
  | cons s ss ih => simp [renumFrom, segData, ih]

/-- C7: serializing the parsed segment list with `generateSRT` and re-parsing
with `parseSrt` yields the same segments — same timecodes, same text, same
segment boundaries (the serializer renumbers the ignored index line). -/
theorem parseSrt_generateSRT_roundtrip (p : Str) :
    (parseSrt (generateSRT (parseSrt p))).map segData = (parseSrt p).map segData := by
  have hwf : ∀ s ∈ parseSrt p, isTSshape s.start_time = true ∧
      isTSshape s.end_time = true ∧ '\n' ∉ s.text := fun s hs => parseSrt_wf hs
  have hlen := srtBlocksFrom_length 1 (parseSrt p)
  have hmain := parseLoop_blocks (parseSrt p) 1
    ((srtBlocksFrom 1 (parseSrt p)).length + 1) hwf (by omega)
  calc (parseSrt (generateSRT (parseSrt p))).map segData
      = (renumFrom 1 (parseSrt p)).map segData := by
        rw [show parseSrt (generateSRT (parseSrt p))
          = renumFrom 1 (parseSrt p) from hmain]
    _ = (parseSrt p).map segData := renumFrom_segData 1 (parseSrt p)


/-! ## Per-request temp paths (claim C5)

The route computes `uniquePrefix = Date.now()` (a millisecond timestamp) and
derives every ephemeral path from it with Node's `path.join`:
`uploads/<pfx>-<name>` for the upload, `uploads/<pfx>.srt`,
`uploads/<pfx>-broll.mp4`, and `output/processed-<pfx>-<name>`.  Directories
live under `process.cwd()`, an absolute path shared by all requests of one
server, modelled as an abstract string.  `path.join` concatenates with `/`
and then normalizes: it drops empty and `.` segments, resolves `..` against
the preceding segment (or against the root, where it vanishes), and rejoins
with `/`, keeping a leading `/` of an absolute input.  (Preservation of a
trailing separator is not modelled; no caller produces one.) -/

/-- Split on `/` (the segments of a POSIX path; no segment contains `/`). -/
def splitSlash : Str → List Str
  | [] => [[]]
  | c :: cs =>
    if c = '/' then [] :: splitSlash cs
    else
      match splitSlash cs with
      | [] => [[c]]
      | s :: rest => (c :: s) :: rest

/-- One step of path normalization over the segment stack. -/
def normStep (acc : List Str) (seg : Str) : List Str :=
  if seg = [] ∨ seg = ".".data then acc
  else if seg = "..".data then acc.dropLast
  else acc ++ [seg]

/-- Normalize a segment list (absolute-path semantics: `..` at the root
vanishes). -/
def normSegs (l : List Str) : List Str := l.foldl normStep []

/-- Rejoin segments with `/`. -/
def joinSegs : List Str → Str
  | [] => []
  | [s] => s
  | s :: rest => s ++ '/' :: joinSegs rest

/-- Node's `path.join` for the two-argument uses in the route: concatenate
with `/`, then normalize. -/
def pathJoin (a b : Str) : Str :=
  let joined := a ++ "/".data ++ b
  (if joined.head? = some '/' then "/".data else []) ++
    joinSegs (normSegs (splitSlash joined))

def uploadsDir (cwd : Str) : Str := pathJoin cwd "uploads".data

def outputDir (cwd : Str) : Str := pathJoin cwd "output".data

def inputPath (cwd pfx name : Str) : Str :=
  pathJoin (uploadsDir cwd) (pfx ++ "-".data ++ name)

def outputPath (cwd pfx name : Str) : Str :=
  pathJoin (outputDir cwd) ("processed-".data ++ (pfx ++ "-".data ++ name))

def srtPathOf (cwd pfx : Str) : Str :=
  pathJoin (uploadsDir cwd) (pfx ++ ".srt".data)

def brollPathOf (cwd pfx : Str) : Str :=
  pathJoin (uploadsDir cwd) (pfx ++ "-broll.mp4".data)

/-- Every filesystem path a request with prefix `pfx` and upload name `name`
can create (subtitle and B-roll paths only when those assets are in play). -/
def requestPaths (cwd pfx name : Str) (hasSrt hasBroll : Bool) : List Str :=
  [inputPath cwd pfx name, outputPath cwd pfx name]
    ++ (if hasSrt then [srtPathOf cwd pfx] else [])
    ++ (if hasBroll then [brollPathOf cwd pfx] else [])

/-- A segment that normalization passes through untouched. -/
def plainSeg (s : Str) : Prop := s ≠ [] ∧ s ≠ ".".data ∧ s ≠ "..".data

theorem splitSlash_ne_nil (l : Str) : splitSlash l ≠ [] := by
  cases l with
  | nil => simp [splitSlash]
  | cons c cs =>
    by_cases hc : c = '/'
    · simp [splitSlash, hc]
    · simp only [splitSlash, hc, if_false]
      cases hs : splitSlash cs <;> simp

theorem splitSlash_noslash {a : Str} (h : '/' ∉ a) : splitSlash a = [a] := by
  induction a with
  | nil => rfl
  | cons c cs ih =>
    have hc : c ≠ '/' := fun e => h (by simp [e])
    have hr := ih (fun m => h (by simp [m]))
    simp [splitSlash, hc, hr]

theorem splitSlash_append (a b : Str) :
    splitSlash (a ++ '/' :: b) = splitSlash a ++ splitSlash b := by
  induction a with
  | nil => simp [splitSlash]
  | cons c cs ih =>
    by_cases hc : c = '/'
    · simp [splitSlash, hc, ih]
    · rw [List.cons_append]
      simp only [splitSlash, hc, if_false]
      rw [ih]
      cases hs : splitSlash cs with
      | nil => exact absurd hs (splitSlash_ne_nil cs)
      | cons s rest => rfl

theorem mem_splitSlash_noslash : ∀ {l s : Str}, s ∈ splitSlash l → '/' ∉ s := by
  intro l
  induction l with
  | nil =>
    intro s hs
    simp [splitSlash] at hs
    subst hs; simp
  | cons c cs ih =>
    intro s hs
    by_cases hc : c = '/'
    · simp [splitSlash, hc] at hs
      rcases hs with h | h
      · subst h; simp
      · exact ih h
    · simp only [splitSlash, hc, if_false] at hs
      cases hsp : splitSlash cs with
      | nil => exact absurd hsp (splitSlash_ne_nil cs)
      | cons s0 rest =>
        rw [hsp] at hs
        simp only [List.mem_cons] at hs
        rcases hs with h | h
        · subst h
          intro hmem
          rcases List.mem_cons.1 hmem with h' | h'
          · exact hc h'.symm
          · exact ih (by rw [hsp]; exact List.mem_cons_self ..) h'
        · exact ih (by rw [hsp]; exact List.mem_cons_of_mem _ h)

theorem normStep_plain {s : Str} (h : plainSeg s) (acc : List Str) :
    normStep acc s = acc ++ [s] := by
  obtain ⟨h1, h2, h3⟩ := h
  rw [normStep, if_neg (by tauto), if_neg h3]

theorem foldl_normStep_plain (acc : List Str) {L : List Str}
    (h : ∀ s ∈ L, plainSeg s) : L.foldl normStep acc = acc ++ L := by
  induction L generalizing acc with
  | nil => simp
  | cons s rest ih =>
    rw [List.foldl_cons, normStep_plain (h s (by simp)),
      ih (acc ++ [s]) (fun x hx => h x (by simp [hx]))]
    simp

theorem normSegs_plain {L : List Str} (h : ∀ s ∈ L, plainSeg s) :
    normSegs L = L := by
  simpa [normSegs] using foldl_normStep_plain [] h

theorem normSegs_append_plain {L : List Str} {x : Str} (hx : plainSeg x) :
    normSegs (L ++ [x]) = normSegs L ++ [x] := by
  simp [normSegs, List.foldl_append, normStep_plain hx]

theorem normSegs_empty_cons (L : List Str) : normSegs ([] :: L) = normSegs L := by
  simp [normSegs, List.foldl_cons, normStep]

theorem mem_foldl_normStep : ∀ {L acc : List Str} {s : Str},
    s ∈ L.foldl normStep acc → s ∈ acc ∨ (s ∈ L ∧ plainSeg s) := by
  intro L
  induction L with
  | nil => intro acc s h; exact Or.inl (by simpa using h)
  | cons x rest ih =>
    intro acc s h
    rw [List.foldl_cons] at h
    rcases ih h with h' | h'
    · unfold normStep at h'
      split at h'
      · exact Or.inl h'
      · split at h'
        · exact Or.inl (List.dropLast_subset _ h')
        · rcases List.mem_append.1 h' with h'' | h''
          · exact Or.inl h''
          · have hs : s = x := by simpa using h''
            subst hs
            rename_i hne1 hne2
            push_neg at hne1
            exact Or.inr ⟨by simp, hne1.1, hne1.2, hne2⟩
    · exact Or.inr ⟨by simp [h'.1], h'.2⟩

theorem mem_normSegs {L : List Str} {s : Str} (h : s ∈ normSegs L) :
    s ∈ L ∧ plainSeg s := by
  rcases mem_foldl_normStep h with h' | h'
  · simp at h'
  · exact h'

theorem joinSegs_cons_cons (s t : Str) (r : List Str) :
    joinSegs (s :: t :: r) = s ++ '/' :: joinSegs (t :: r) := rfl

theorem joinSegs_append_single {S : List Str} (hS : S ≠ []) (x : Str) :
    joinSegs (S ++ [x]) = joinSegs S ++ '/' :: x := by
  induction S with
  | nil => simp at hS
  | cons s rest ih =>
    cases rest with
    | nil => simp [joinSegs]
    | cons t r =>
      have h1 : (s :: t :: r) ++ [x] = s :: t :: (r ++ [x]) := rfl
      have h2 : (t :: r) ++ [x] = t :: (r ++ [x]) := rfl
      rw [h1, joinSegs_cons_cons, joinSegs_cons_cons s t r, ← h2, ih (by simp)]
      simp [List.append_assoc]

theorem splitSlash_joinSegs : ∀ {S : List Str}, S ≠ [] →
    (∀ s ∈ S, '/' ∉ s) → splitSlash (joinSegs S) = S := by
  intro S
  induction S with
  | nil => intro hS; simp at hS
  | cons s rest ih =>
    intro _ h
    cases rest with
    | nil => simpa [joinSegs] using splitSlash_noslash (h s (by simp))
    | cons t r =>
      rw [joinSegs_cons_cons, splitSlash_append,
        splitSlash_noslash (h s (by simp)),
        ih (by simp) (fun x hx => h x (by simp [hx]))]
      rfl

/-- The prefix-form of one `path.join` under an absolute first operand and a
slash-free, normalization-neutral second operand. -/
theorem pathJoin_segments {c u : Str} (hc : c.head? = some '/') (hu : '/' ∉ u)
    (hup : plainSeg u) :
    ∃ S, pathJoin c u = "/".data ++ joinSegs (S ++ [u]) ∧
      ∀ s ∈ S ++ [u], '/' ∉ s ∧ plainSeg s := by
  refine ⟨normSegs (splitSlash c), ?_, ?_⟩
  · have hj : c ++ "/".data ++ u = c ++ '/' :: u := by simp
    have hh : (c ++ '/' :: u).head? = some '/' := by
      cases c with
      | nil => simp at hc
      | cons a l => simpa using hc
    rw [pathJoin]
    rw [hj, if_pos hh, splitSlash_append, splitSlash_noslash hu,
      normSegs_append_plain hup]
  · intro s hs
    rcases List.mem_append.1 hs with h | h
    · have hm := mem_normSegs h
      exact ⟨mem_splitSlash_noslash hm.1, hm.2⟩
    · have : s = u := by simpa using h
      subst this
      exact ⟨hu, hup⟩

/-- Joining a slash-free, normalization-neutral final component onto an
already-joined absolute directory is plain concatenation. -/
theorem pathJoin_basename {c u x : Str} (hc : c.head? = some '/') (hu : '/' ∉ u)
    (hup : plainSeg u) (hx : '/' ∉ x) (hxp : plainSeg x) :
    pathJoin (pathJoin c u) x = pathJoin c u ++ '/' :: x := by
  obtain ⟨S, hP, hall⟩ := pathJoin_segments hc hu hup
  have hSne : S ++ [u] ≠ [] := by simp
  have hslash : ∀ s ∈ S ++ [u], '/' ∉ s := fun s hs => (hall s hs).1
  have hplain : ∀ s ∈ S ++ [u], plainSeg s := fun s hs => (hall s hs).2
  have hj : pathJoin c u ++ "/".data ++ x = pathJoin c u ++ '/' :: x := by simp
  have hh : (pathJoin c u ++ '/' :: x).head? = some '/' := by
    rw [hP]; rfl
  rw [pathJoin, hj, if_pos hh]
  have hsplit : splitSlash (pathJoin c u ++ '/' :: x)
      = [] :: (S ++ [u]) ++ [x] := by
    rw [splitSlash_append, splitSlash_noslash hx, hP]
    have : ("/".data : Str) ++ joinSegs (S ++ [u]) = '/' :: joinSegs (S ++ [u]) := rfl
    rw [this]
    show ([] : Str) :: splitSlash (joinSegs (S ++ [u])) ++ [x] = _
    rw [splitSlash_joinSegs hSne hslash]
  rw [hsplit]
  have hnorm : normSegs ([] :: (S ++ [u]) ++ [x]) = (S ++ [u]) ++ [x] := by
    rw [List.cons_append, normSegs_empty_cons, normSegs_append_plain hxp,
      normSegs_plain hplain]
  rw [hnorm, joinSegs_append_single hSne, hP]
  simp [List.append_assoc]

theorem noslash_natRepr (t : Nat) : '/' ∉ natRepr t :=
  fun h => absurd (natRepr_digits t _ h) (by decide)

theorem noslash_cons {c : Char} {l : Str} (hc : c ≠ '/') (hl : '/' ∉ l) :
    '/' ∉ c :: l := by
  intro h
  rcases List.mem_cons.1 h with h' | h'
  · exact hc h'.symm
  · exact hl h'

/-- Any nonempty string whose head is not `.` is normalization-neutral. -/
theorem plainSeg_of_head {d : Char} (l : Str) (h1 : d ≠ '.') :
    plainSeg (d :: l) := by
  refine ⟨by simp, ?_, ?_⟩ <;> intro he <;> injection he with h _ <;> exact h1 h

theorem natRepr_head_digit (t : Nat) :
    ∃ d ds, natRepr t = d :: ds ∧ d.isDigit = true := by
  cases hcase : natRepr t with
  | nil => exact absurd hcase (natRepr_ne_nil t)
  | cons d ds => exact ⟨d, ds, rfl, natRepr_digits t d (by rw [hcase]; simp)⟩

theorem plainSeg_natRepr_append (t : Nat) (l : Str) :
    plainSeg (natRepr t ++ l) := by
  obtain ⟨d, ds, hd, hdig⟩ := natRepr_head_digit t
  rw [hd, List.cons_append]
  exact plainSeg_of_head _ (fun he => by rw [he] at hdig; exact absurd hdig (by decide))

theorem inputPath_eq {cwd : Str} (hc : cwd.head? = some '/') (t : Nat)
    {name : Str} (hname : '/' ∉ name) :
    inputPath cwd (natRepr t) name
      = uploadsDir cwd ++ '/' :: (natRepr t ++ '-' :: name) := by
  have harg : natRepr t ++ "-".data ++ name = natRepr t ++ '-' :: name := by
    simp
  rw [inputPath, uploadsDir, harg]
  exact pathJoin_basename hc (by decide) ⟨by decide, by decide, by decide⟩
    (noslash_natRepr t |> fun h => by
      intro hm
      rcases List.mem_append.1 hm with h' | h'
      · exact h h'
      · rcases List.mem_cons.1 h' with h'' | h''
        · exact absurd h'' (by decide)
        · exact hname h'')
    (plainSeg_natRepr_append t _)

theorem srtPathOf_eq {cwd : Str} (hc : cwd.head? = some '/') (t : Nat) :
    srtPathOf cwd (natRepr t)
      = uploadsDir cwd ++ '/' :: (natRepr t ++ '.' :: 's' :: 'r' :: 't' :: []) := by
  rw [srtPathOf, uploadsDir]
  exact pathJoin_basename hc (by decide) ⟨by decide, by decide, by decide⟩
    (fun hm => by
      rcases List.mem_append.1 hm with h' | h'
      · exact noslash_natRepr t h'
      · exact absurd h' (by decide))
    (plainSeg_natRepr_append t _)

theorem brollPathOf_eq {cwd : Str} (hc : cwd.head? = some '/') (t : Nat) :
    brollPathOf cwd (natRepr t)
      = uploadsDir cwd ++ '/' ::
        (natRepr t ++ '-' :: 'b' :: 'r' :: 'o' :: 'l' :: 'l' :: '.' :: 'm' :: 'p' :: '4' :: []) := by
  rw [brollPathOf, uploadsDir]
  exact pathJoin_basename hc (by decide) ⟨by decide, by decide, by decide⟩
    (fun hm => by
      rcases List.mem_append.1 hm with h' | h'
      · exact noslash_natRepr t h'
      · exact absurd h' (by decide))
    (plainSeg_natRepr_append t _)

theorem outputPath_eq {cwd : Str} (hc : cwd.head? = some '/') (t : Nat)
    {name : Str} (hname : '/' ∉ name) :
    outputPath cwd (natRepr t) name
      = outputDir cwd ++ '/' ::
        ('p' :: 'r' :: 'o' :: 'c' :: 'e' :: 's' :: 's' :: 'e' :: 'd' :: '-' ::
          (natRepr t ++ '-' :: name)) := by
  have harg : "processed-".data ++ (natRepr t ++ "-".data ++ name)
      = 'p' :: 'r' :: 'o' :: 'c' :: 'e' :: 's' :: 's' :: 'e' :: 'd' :: '-' ::
        (natRepr t ++ '-' :: name) := by
    simp
  rw [outputPath, outputDir, harg]
  refine pathJoin_basename hc (by decide) ⟨by decide, by decide, by decide⟩ ?_ ?_
  · intro hm
    simp only [List.mem_cons] at hm
    rcases hm with h | h | h | h | h | h | h | h | h | h | h
    all_goals first
      | (exact absurd h (by decide))
      | (rcases List.mem_append.1 h with h' | h'
         · exact noslash_natRepr t h'
         · rcases List.mem_cons.1 h' with h'' | h''
           · exact absurd h'' (by decide)
           · exact hname h'')
  · exact plainSeg_of_head _ (by decide)

/-- Splitting two slash-terminated concatenations at their last separator. -/
theorem lastSlashSplit {B1 B2 x1 x2 : Str} (h1 : '/' ∉ x1) (h2 : '/' ∉ x2)
    (h : B1 ++ '/' :: x1 = B2 ++ '/' :: x2) : B1 = B2 ∧ x1 = x2 := by
  have hr := congrArg List.reverse h
  rw [List.reverse_append, List.reverse_append, List.reverse_cons,
    List.reverse_cons, List.append_assoc, List.append_assoc] at hr
  simp only [List.singleton_append] at hr
  have hall1 : ∀ c ∈ x1.reverse, (c != '/') = true := by
    intro c hcm
    have hx : c ∈ x1 := List.mem_reverse.1 hcm
    have hne : c ≠ '/' := fun e => h1 (e ▸ hx)
    simpa using hne
  have hall2 : ∀ c ∈ x2.reverse, (c != '/') = true := by
    intro c hcm
    have hx : c ∈ x2 := List.mem_reverse.1 hcm
    have hne : c ≠ '/' := fun e => h2 (e ▸ hx)
    simpa using hne
  have ht := congrArg (List.takeWhile (fun c => c != '/')) hr
  rw [takeWhile_all_append hall1 (by decide), takeWhile_all_append hall2 (by decide)] at ht
  have hd := congrArg (List.dropWhile (fun c => c != '/')) hr
  rw [dropWhile_all_append hall1 (by decide), dropWhile_all_append hall2 (by decide)] at hd
  refine ⟨?_, List.reverse_injective ht⟩
  have : B1.reverse = B2.reverse := by
    injection hd
  exact List.reverse_injective this

/-- A timestamp can be recovered from any generated path: after the shared
directory part and the last separator, the final segment starts with the
decimal timestamp and a non-digit right after it (for the output path, after
the literal `processed-`). -/
theorem mem_requestPaths_shape {cwd : Str} {t : Nat} {name : Str}
    {hs hb : Bool} {p : Str} (hc : cwd.head? = some '/') (hn : '/' ∉ name)
    (h : p ∈ requestPaths cwd (natRepr t) name hs hb) :
    (∃ x, p = uploadsDir cwd ++ '/' :: x ∧ '/' ∉ x ∧
      ∃ c r, c.isDigit = false ∧ x = natRepr t ++ c :: r) ∨
    (∃ y, p = outputDir cwd ++ '/' ::
        ('p' :: 'r' :: 'o' :: 'c' :: 'e' :: 's' :: 's' :: 'e' :: 'd' :: '-' :: y) ∧
      '/' ∉ ('p' :: 'r' :: 'o' :: 'c' :: 'e' :: 's' :: 's' :: 'e' :: 'd' :: '-' :: y) ∧
      ∃ c r, c.isDigit = false ∧ y = natRepr t ++ c :: r) := by
  have hmem : p = inputPath cwd (natRepr t) name ∨ p = outputPath cwd (natRepr t) name ∨
      p = srtPathOf cwd (natRepr t) ∨ p = brollPathOf cwd (natRepr t) := by
    cases hs <;> cases hb <;> simp_all [requestPaths] <;> tauto
  have hnr := noslash_natRepr t
  rcases hmem with h | h | h | h
  · refine Or.inl ⟨natRepr t ++ '-' :: name, by rw [h, inputPath_eq hc t hn], ?_,
      '-', name, by decide, rfl⟩
    intro hm
    rcases List.mem_append.1 hm with h' | h'
    · exact hnr h'
    · rcases List.mem_cons.1 h' with h'' | h''
      · exact absurd h'' (by decide)
      · exact hn h''
  · refine Or.inr ⟨natRepr t ++ '-' :: name, by rw [h, outputPath_eq hc t hn], ?_,
      '-', name, by decide, rfl⟩
    refine noslash_cons (by decide) (noslash_cons (by decide) (noslash_cons (by decide)
      (noslash_cons (by decide) (noslash_cons (by decide) (noslash_cons (by decide)
      (noslash_cons (by decide) (noslash_cons (by decide) (noslash_cons (by decide)
      (noslash_cons (by decide) ?_)))))))))
    intro hm
    rcases List.mem_append.1 hm with h' | h'
    · exact hnr h'
    · rcases List.mem_cons.1 h' with h'' | h''
      · exact absurd h'' (by decide)
      · exact hn h''
  · refine Or.inl ⟨natRepr t ++ '.' :: 's' :: 'r' :: 't' :: [],
      by rw [h, srtPathOf_eq hc t], ?_, '.', 's' :: 'r' :: 't' :: [], by decide, rfl⟩
    intro hm
    rcases List.mem_append.1 hm with h' | h'
    · exact hnr h'
    · exact absurd h' (by decide)
  · refine Or.inl ⟨natRepr t ++ '-' :: 'b' :: 'r' :: 'o' :: 'l' :: 'l' :: '.' :: 'm' :: 'p' :: '4' :: [],
      by rw [h, brollPathOf_eq hc t], ?_, '-',
      'b' :: 'r' :: 'o' :: 'l' :: 'l' :: '.' :: 'm' :: 'p' :: '4' :: [], by decide, rfl⟩
    intro hm
    rcases List.mem_append.1 hm with h' | h'
    · exact hnr h'
    · exact absurd h' (by decide)

theorem stamp_of_eq {t1 t2 : Nat} {c1 c2 : Char} {r1 r2 : Str}
    (hc1 : c1.isDigit = false) (hc2 : c2.isDigit = false)
    (h : natRepr t1 ++ c1 :: r1 = natRepr t2 ++ c2 :: r2) : t1 = t2 := by
  have e1 := takeWhile_all_append (natRepr_digits t1) hc1 r1
  have e2 := takeWhile_all_append (natRepr_digits t2) hc2 r2
  have hw := congrArg (List.takeWhile Char.isDigit) h
  rw [e1, e2] at hw
  exact natRepr_injective hw

/-- Counterexample for C5: the per-request identifier is `Date.now()`, a
millisecond timestamp, so two distinct concurrent requests served in the same
millisecond share it — two requests differing in their upload filename get
the very same subtitle path.  Moreover `path.join` normalizes `..` segments,
so an upload filename carrying a traversal makes a timestamp-3 request's
input path equal a timestamp-9 request's output path: paths need not even
embed their own request's timestamp. -/
theorem requestPaths_collision :
    ("a.mp4".data ≠ "b.mp4".data ∧
      srtPathOf "/app".data (natRepr 1717) ∈
        requestPaths "/app".data (natRepr 1717) "a.mp4".data true true ∧
      srtPathOf "/app".data (natRepr 1717) ∈
        requestPaths "/app".data (natRepr 1717) "b.mp4".data true true) ∧
    (3 ≠ 9 ∧
      inputPath "/app".data (natRepr 3) "x/../../output/processed-9-y.mp4".data
        = outputPath "/app".data (natRepr 9) "y.mp4".data) := by
  refine ⟨⟨by decide, by decide, by decide⟩, by decide, by decide⟩

/-- C5 amended: every generated path embeds the request's millisecond
timestamp `Date.now()`; two requests whose timestamps differ get disjoint
path sets provided the uploaded filenames contain no path separator (the
server's working directory being absolute), while concurrent requests in the
same millisecond — or a filename smuggling `..` traversal segments past
`path.join` — can collide. -/
theorem requestPaths_disjoint (cwd : Str) (t1 t2 : Nat) (n1 n2 : Str)
    (s1 b1 s2 b2 : Bool) (hc : cwd.head? = some '/')
    (hn1 : '/' ∉ n1) (hn2 : '/' ∉ n2) (hne : t1 ≠ t2) (p : Str)
    (h1 : p ∈ requestPaths cwd (natRepr t1) n1 s1 b1) :
    p ∉ requestPaths cwd (natRepr t2) n2 s2 b2 := by
  intro h2
  rcases mem_requestPaths_shape hc hn1 h1 with
      ⟨x1, he1, hx1, c1, r1, hd1, hv1⟩ | ⟨x1, he1, hx1, c1, r1, hd1, hv1⟩ <;>
    rcases mem_requestPaths_shape hc hn2 h2 with
      ⟨x2, he2, hx2, c2, r2, hd2, hv2⟩ | ⟨x2, he2, hx2, c2, r2, hd2, hv2⟩
  · obtain ⟨-, hx⟩ := lastSlashSplit hx1 hx2 (he1.symm.trans he2)
    exact hne (stamp_of_eq hd1 hd2 (by rw [← hv1, ← hv2, hx]))
  · obtain ⟨-, hx⟩ := lastSlashSplit hx1 hx2 (he1.symm.trans he2)
    obtain ⟨d, ds, hdrep, hdig⟩ := natRepr_head_digit t1
    rw [hv1, hdrep] at hx
    simp only [List.cons_append, List.cons.injEq] at hx
    rw [hx.1] at hdig
    exact absurd hdig (by decide)
  · obtain ⟨-, hx⟩ := lastSlashSplit hx1 hx2 (he1.symm.trans he2)
    obtain ⟨d, ds, hdrep, hdig⟩ := natRepr_head_digit t2
    rw [hv2, hdrep] at hx
    simp only [List.cons_append, List.cons.injEq] at hx
    rw [← hx.1] at hdig
    exact absurd hdig (by decide)
  · obtain ⟨-, hx⟩ := lastSlashSplit hx1 hx2 (he1.symm.trans he2)
    have hy : x1 = x2 := by simpa using hx
    exact hne (stamp_of_eq hd1 hd2 (by rw [← hv1, ← hv2, hy]))

/-- Witness for the amended C5 at concrete timestamps 1 and 2. -/
theorem requestPaths_disjoint_witness :
    inputPath "/app".data (natRepr 1) "a.mp4".data ∉
      requestPaths "/app".data (natRepr 2) "a.mp4".data true true :=
  requestPaths_disjoint "/app".data 1 2 "a.mp4".data "a.mp4".data true true true true
    (by decide) (by decide) (by decide) (by decide) _ (by decide)


/-! ## The ffmpeg complex filter (claims C4, C8)

Transliterated from the final route version: when a B-roll clip was
downloaded the code pushes a constant scale stage and an overlay of the
scaled clip onto `[0:v]` gated to `between(t,5,10)`, rebinding the current
video stream to `[video_out]`; when a subtitle file exists it pushes a
`subtitles=` burn stage reading the current video stream and producing
`[video_final]`. -/

/-- The `fontsDir.replace(/\\/g, '/')` step. -/
def escapeSlashes (l : Str) : Str := l.map (fun c => if c = '\\' then '/' else c)

/-- The `.replace(/:/g, '\\:')` step. -/
def escapeColons (l : Str) : Str :=
  l.flatMap (fun c => if c = ':' then ['\\', ':'] else [c])

def fontsDir (cwd : Str) : Str := pathJoin (pathJoin cwd "public".data) "fonts".data

def escapedFontsDir (cwd : Str) : Str := escapeColons (escapeSlashes (fontsDir cwd))

/-- The `force_style='FontName=...,FontSize=16,...'` fragment. -/
def forceStyle (fontName : Str) : Str :=
  "force_style=".data ++ sq :: "FontName=".data ++ fontName ++
    ",FontSize=16,PrimaryColour=&Hffffff,OutlineColour=&H000000,Outline=2,Shadow=1".data
    ++ [sq]

/-- Stage `[1:v]scale=1280:720,setsar=1[broll_scaled]`. -/
def scaleStage : Str := "[1:v]scale=1280:720,setsar=1[broll_scaled]".data

/-- The overlay stage without its output label. -/
def overlayBody : Str :=
  "[0:v][broll_scaled]overlay=0:0:enable=".data ++ sq :: "between(t,5,10)".data ++ [sq]

/-- Stage `[0:v][broll_scaled]overlay=0:0:enable='between(t,5,10)'[video_out]`
(the video stream is `[0:v]` when it is pushed). -/
def overlayStage : Str :=
  "[0:v][broll_scaled]overlay=0:0:enable=".data ++ sq :: "between(t,5,10)".data ++
    sq :: "[video_out]".data

/-- The subtitle-burn stage minus its leading input-stream label. -/
def subtitleTail (srtP cwd fontName : Str) : Str :=
  "subtitles=".data ++ srtP ++ ":fontsdir=".data ++ escapedFontsDir cwd ++
    ":".data ++ forceStyle fontName ++ "[video_final]".data

/-- The filter list and final video stream the route builds before encoding. -/
def buildComplexFilter (brollP srtP : Option Str) (fontName cwd : Str) :
    List Str × Str :=
  let vs0 := "[0:v]".data
  let st1 : List Str × Str :=
    match brollP with
    | some _ => ([scaleStage, overlayStage], "[video_out]".data)
    | none => ([], vs0)
  match srtP with
  | some s => (st1.1 ++ [st1.2 ++ subtitleTail s cwd fontName], "[video_final]".data)
  | none => st1

/-- C4: with both a B-roll clip and a subtitle file, the built filter chain is
scale, then overlay, then subtitle burn; in the `;`-joined filter-graph string
the overlay stage textually precedes the subtitle-burn stage, and the
subtitle burn reads `[video_out]`, the very stream the overlay outputs. -/
theorem overlay_precedes_subtitles (b s fontName cwd : Str) :
    (buildComplexFilter (some b) (some s) fontName cwd).1 =
      [scaleStage, overlayStage, "[video_out]".data ++ subtitleTail s cwd fontName] ∧
    List.intercalate ";".data (buildComplexFilter (some b) (some s) fontName cwd).1 =
      scaleStage ++ ';' :: overlayStage ++ ';' :: "[video_out]".data ++
        subtitleTail s cwd fontName ∧
    overlayStage = overlayBody ++ "[video_out]".data := by
  refine ⟨rfl, ?_, ?_⟩
  · show List.intercalate ";".data
      [scaleStage, overlayStage, "[video_out]".data ++ subtitleTail s cwd fontName] = _
    simp [List.intercalate, List.intersperse, List.append_assoc]
  · simp [overlayStage, overlayBody, List.append_assoc]

/-- Modelled from the spec: the scale stage the claim describes, which scales
the B-roll clip to the main video frame geometry `w`x`h`. -/
def specScaleStage (w h : Nat) : Str :=
  "[1:v]scale=".data ++ natRepr w ++ ":".data ++ natRepr h ++
    ",setsar=1[broll_scaled]".data

/-- Counterexample for C8: for a request whose uploaded video has a 640x480
frame, the first stage of the built filter graph is not a scale to the main
video's geometry — the builder never sees the main video's dimensions and
always emits the constant `scale=1280:720`. -/
theorem scaleStage_not_main_geometry :
    (buildComplexFilter (some "b.mp4".data) (some "s.srt".data) "Roboto".data
        "/app".data).1.head? = some scaleStage ∧
    scaleStage = specScaleStage 1280 720 ∧
    scaleStage ≠ specScaleStage 640 480 := by
  refine ⟨rfl, by decide, by decide⟩

/-- C8 amended: with both assets present, the first stage scales the B-roll
clip to the fixed 1280x720 geometry (and the second overlays it onto the main
video within the fixed 5-10s window), irrespective of the uploaded video's
frame size. -/
theorem scaleStage_fixed_geometry (b s fontName cwd : Str) :
    (buildComplexFilter (some b) (some s) fontName cwd).1.head? =
      some (specScaleStage 1280 720) ∧
    (buildComplexFilter (some b) (some s) fontName cwd).1[1]? = some overlayStage := by
  refine ⟨?_, rfl⟩
  have h : scaleStage = specScaleStage 1280 720 := by decide
  simp [buildComplexFilter, h]


/-! ## The request pipeline (claims C1, C3)

The POST handler of the final route version, as a function of the request and
of an environment recording what each external operation did: the two
filesystem writes, the two B-roll collaborators (whose own try/catch already
degrades errors to `[]` and `null`), the B-roll download, the encoder, and
the final read of the output file.  Files on disk are tracked per asset slot,
mirroring the code's `inputPath` / `srtPath` / `brollPath` / `outputPath`
variables. -/

structure Env where
  writeInputOk : Bool
  writeSrtOk : Bool
  keywords : List Str
  clipUrl : Option Str
  downloadOk : Bool
  encodeOk : Bool
  readOutputOk : Bool
deriving DecidableEq

structure Req where
  hasFile : Bool
  fileName : Str
  srtContent : Option Str
  fontName : Str
  addBroll : Bool
  ts : Nat
deriving DecidableEq

inductive Outcome where
  | noFile
  | serverError
  | encodeError
  | readError
  | delivered
deriving DecidableEq, Repr

/-- JS truthiness of the optional subtitle text (`if (srtContent)`): absent or
empty strings are falsy. -/
def srtTruthy (o : Option Str) : Bool :=
  match o with
  | some s => !s.isEmpty
  | none => false

/-- The request's files currently on disk, one slot per asset. -/
structure Slots where
  inputF : Option Str
  srtF : Option Str
  brollF : Option Str
  outF : Option Str

def remainingFiles (s : Slots) : List Str :=
  s.inputF.toList ++ s.srtF.toList ++ s.brollF.toList ++ s.outF.toList

/-- The B-roll block of the route: keyword extraction on the parsed captions,
clip lookup for the first keyword, then download into
`uploads/<pfx>-broll.mp4`.  `createWriteStream(destination)` creates the file
before the fetch, and the catch around `downloadFile` resets the tracked
`brollPath` variable to null while leaving that file on disk.  Returns the
tracked variable and the file actually created. -/
def resolveBroll (env : Env) (cwd pfx : Str) (addBroll srtPresent : Bool) :
    Option Str × Option Str :=
  if addBroll && srtPresent then
    match env.keywords with
    | [] => (none, none)
    | _ :: _ =>
      match env.clipUrl with
      | none => (none, none)
      | some _ =>
        let bp := brollPathOf cwd pfx
        if env.downloadOk then (some bp, some bp) else (none, some bp)
  else (none, none)

/-- After staging: B-roll resolution, then ffmpeg with its `end` handler
(read the output, then unlink input/output/srt/broll) and `error` handler
(unlink the same four, the last three guarded by existence and by the
tracked variables).  A failed output read resolves the 500 before any
unlink runs, leaving every file in place. -/
def afterStaging (env : Env) (cwd pfx : Str) (req : Req) (srtSlot : Option Str) :
    Outcome × List Str :=
  let ip := inputPath cwd pfx req.fileName
  let op := outputPath cwd pfx req.fileName
  let rb := resolveBroll env cwd pfx req.addBroll srtSlot.isSome
  if env.encodeOk then
    if env.readOutputOk then
      (Outcome.delivered,
        remainingFiles ⟨none, none, if rb.1.isSome then none else rb.2, none⟩)
    else
      (Outcome.readError, remainingFiles ⟨some ip, srtSlot, rb.2, some op⟩)
  else
    (Outcome.encodeError,
      remainingFiles ⟨none, none, if rb.1.isSome then none else rb.2, none⟩)

/-- The POST handler (final route version): outcome and files left on disk.
A write failure escapes to the outer catch (500 `Server error`), which runs
no cleanup. -/
def runPipeline (cwd : Str) (env : Env) (req : Req) : Outcome × List Str :=
  if !req.hasFile then (Outcome.noFile, [])
  else
    let pfx := natRepr req.ts
    if !env.writeInputOk then (Outcome.serverError, [])
    else
      if srtTruthy req.srtContent then
        if !env.writeSrtOk then
          (Outcome.serverError,
            remainingFiles ⟨some (inputPath cwd pfx req.fileName), none, none, none⟩)
        else afterStaging env cwd pfx req (some (srtPathOf cwd pfx))
      else afterStaging env cwd pfx req none

/-- The one file the cleanup handlers can never delete: a B-roll clip whose
download failed (the tracked variable was nulled while the created file
stayed). -/
def leakedBroll (env : Env) (cwd : Str) (req : Req) : List Str :=
  let rb := resolveBroll env cwd (natRepr req.ts) req.addBroll
    (srtTruthy req.srtContent)
  if rb.1.isSome then [] else rb.2.toList

/-- Counterexample for C1: with a request that stages an upload and a
subtitle file and whose encode succeeds but whose output read fails, the
pipeline ends in a failure state with the input, subtitle and output files
still on disk — the cleanup does not run on this exit path. -/
theorem cleanup_skipped_on_read_failure :
    (runPipeline "/app".data
        ⟨true, true, [], none, true, true, false⟩
        ⟨true, "a.mp4".data, some "x".data, "Roboto".data, false, 7⟩).1 =
      Outcome.readError ∧
    (runPipeline "/app".data
        ⟨true, true, [], none, true, true, false⟩
        ⟨true, "a.mp4".data, some "x".data, "Roboto".data, false, 7⟩).2 ≠ [] := by
  refine ⟨by decide, by decide⟩

/-- C1 amended: cleanup runs on the `Delivered` exit and on the
encoder-failure exit, and there deletes every tracked file — nothing remains
except a B-roll clip whose download failed; on a staging write failure or an
output-read failure the already-created files remain on disk. -/
theorem releaseAll_on_delivery_and_encode_error (cwd : Str) (env : Env) (req : Req)
    (h : (runPipeline cwd env req).1 = Outcome.delivered ∨
      (runPipeline cwd env req).1 = Outcome.encodeError) :
    (runPipeline cwd env req).2 = leakedBroll env cwd req := by
  cases hf : req.hasFile with
  | false => simp [runPipeline, hf] at h
  | true =>
    cases hw : env.writeInputOk with
    | false => simp [runPipeline, hf, hw] at h
    | true =>
      cases hs : srtTruthy req.srtContent with
      | false =>
        cases he : env.encodeOk with
        | false =>
          simp [runPipeline, afterStaging, leakedBroll, remainingFiles,
            hf, hw, hs, he, apply_ite Option.toList]
        | true =>
          cases hr : env.readOutputOk with
          | false => simp [runPipeline, afterStaging, hf, hw, hs, he, hr] at h
          | true =>
            simp [runPipeline, afterStaging, leakedBroll, remainingFiles,
              hf, hw, hs, he, hr, apply_ite Option.toList]
      | true =>
        cases hws : env.writeSrtOk with
        | false => simp [runPipeline, hf, hw, hs, hws] at h
        | true =>
          cases he : env.encodeOk with
          | false =>
            simp [runPipeline, afterStaging, leakedBroll, remainingFiles,
              hf, hw, hs, hws, he, apply_ite Option.toList]
          | true =>
            cases hr : env.readOutputOk with
            | false => simp [runPipeline, afterStaging, hf, hw, hs, hws, he, hr] at h
            | true =>
              simp [runPipeline, afterStaging, leakedBroll, remainingFiles,
                hf, hw, hs, hws, he, hr, apply_ite Option.toList]

/-- Witness for the amended C1 on a fully successful request. -/
theorem releaseAll_on_delivery_witness :
    (runPipeline "/app".data
        ⟨true, true, [], none, true, true, true⟩
        ⟨true, "a.mp4".data, some "x".data, "Roboto".data, false, 7⟩).2 =
      leakedBroll ⟨true, true, [], none, true, true, true⟩ "/app".data
        ⟨true, "a.mp4".data, some "x".data, "Roboto".data, false, 7⟩ :=
  releaseAll_on_delivery_and_encode_error _ _ _ (Or.inl (by decide))

/-- C3: with B-roll enabled and subtitles present, if keyword extraction
yields no keywords (or failed, which its catch turns into `[]`), or the clip
lookup yields nothing (or failed, which its catch turns into `null`), or the
download fails, then the tracked B-roll path is null, no error is surfaced,
and an otherwise-valid request still reaches `Delivered`. -/
theorem broll_degrades_gracefully (cwd : Str) (env : Env) (req : Req) (s : Str)
    (hfile : req.hasFile = true) (hsrt : req.srtContent = some s)
    (hne : s.isEmpty = false) (hbroll : req.addBroll = true)
    (hdeg : env.keywords = [] ∨ env.clipUrl = none ∨ env.downloadOk = false)
    (h1 : env.writeInputOk = true) (h2 : env.writeSrtOk = true)
    (h3 : env.encodeOk = true) (h4 : env.readOutputOk = true) :
    (resolveBroll env cwd (natRepr req.ts) req.addBroll true).1 = none ∧
    (runPipeline cwd env req).1 = Outcome.delivered := by
  have hst : srtTruthy req.srtContent = true := by simp [srtTruthy, hsrt, hne]
  constructor
  · rcases hdeg with hkw | hcl | hdl
    · simp [resolveBroll, hbroll, hkw]
    · cases hkw : env.keywords with
      | nil => simp [resolveBroll, hbroll, hkw]
      | cons a l => simp [resolveBroll, hbroll, hkw, hcl]
    · cases hkw : env.keywords with
      | nil => simp [resolveBroll, hbroll, hkw]
      | cons a l =>
        cases hcl : env.clipUrl with
        | none => simp [resolveBroll, hbroll, hkw, hcl]
        | some u => simp [resolveBroll, hbroll, hkw, hcl, hdl]
  · simp [runPipeline, afterStaging, hfile, hst, h1, h2, h3, h4]

/-- Witness for C3: empty keyword list, otherwise-successful request. -/
theorem broll_degrades_gracefully_witness :
    (resolveBroll ⟨true, true, [], none, true, true, true⟩ "/app".data
        (natRepr 7) true true).1 = none ∧
    (runPipeline "/app".data ⟨true, true, [], none, true, true, true⟩
        ⟨true, "a.mp4".data, some "x".data, "Roboto".data, true, 7⟩).1 =
      Outcome.delivered :=
  broll_degrades_gracefully "/app".data
    ⟨true, true, [], none, true, true, true⟩
    ⟨true, "a.mp4".data, some "x".data, "Roboto".data, true, 7⟩
    "x".data rfl rfl (by decide) rfl (Or.inl rfl) rfl rfl rfl rfl

/-! ## The font registry of `route.ts` (claim C6)

The first route version resolves `fontName` through a fixed `fontMap` and
falls back to the Roboto entry (`fontMap[fontName] || fontMap['Roboto']`);
the resolved path is spliced into the subtitle-burn filter as `FontFile=`.
This pipeline variant has no B-roll step and also returns the video filter
it passed to ffmpeg. -/

def robotoFontPath (cwd : Str) : Str :=
  pathJoin (pathJoin (pathJoin cwd "public".data) "fonts".data)
    "Roboto-Regular.ttf".data

/-- The `fontMap` of `route.ts`. -/
def fontMap (cwd : Str) : List (Str × Str) :=
  [("Roboto".data, robotoFontPath cwd),
   ("Lato".data,
     pathJoin (pathJoin (pathJoin cwd "public".data) "fonts".data)
       "Lato-Regular.ttf".data),
   ("DejaVu Sans".data, "/usr/share/fonts/truetype/dejavu/DejaVuSans.ttf".data)]

/-- Member names a JS object literal inherits from `Object.prototype`; a
bracket access `fontMap[name]` on any of them yields the inherited member —
a truthy value — before `|| fontMap['Roboto']` can act. -/
def objectProtoKeys : List Str :=
  ["constructor".data, "hasOwnProperty".data, "isPrototypeOf".data,
   "propertyIsEnumerable".data, "toLocaleString".data, "toString".data,
   "valueOf".data, "__defineGetter__".data, "__defineSetter__".data,
   "__lookupGetter__".data, "__lookupSetter__".data, "__proto__".data]

/-- What the inherited member becomes when spliced into the style template
literal: the `Object.prototype` methods print as native-code stubs
(`constructor` is the `Object` function itself) and `__proto__` is the
prototype object. -/
def protoMemberString (name : Str) : Str :=
  if name = "__proto__".data then "[object Object]".data
  else if name = "constructor".data then
    "function Object() \x7b [native code] \x7d".data
  else "function ".data ++ name ++ "() \x7b [native code] \x7d".data

/-- `fontMap[fontName] || fontMap['Roboto']`: an own property yields its
(non-empty, hence truthy) path; a member inherited from `Object.prototype`
is truthy too, so the fallback does not act and the member itself is used;
only a genuinely absent key gives `undefined` and falls back to Roboto. -/
def fontPath (cwd fontName : Str) : Str :=
  match (fontMap cwd).lookup fontName with
  | some p => p
  | none =>
    if fontName ∈ objectProtoKeys then protoMemberString fontName
    else robotoFontPath cwd

/-- `formData.get('fontName') as string || 'Roboto'`. -/
def effectiveFontName (raw : Str) : Str :=
  if raw.isEmpty then "Roboto".data else raw

/-- The `force_style='Alignment=2,FontFile=...,FontSize=16,...'` fragment. -/
def v1Style (fontP : Str) : Str :=
  "force_style=".data ++ sq :: "Alignment=2,FontFile=".data ++ fontP ++
    ",FontSize=16,PrimaryColour=&Hffffff,OutlineColour=&H000000,Outline=2,Shadow=1".data
    ++ [sq]

/-- The `subtitles=${srtPath}:${style}` video filter of `route.ts`. -/
def v1SubtitleFilter (srtP fontP : Str) : Str :=
  "subtitles=".data ++ srtP ++ ":".data ++ v1Style fontP

/-- The POST handler of `route.ts` (first version, no B-roll): outcome, files
left on disk, and the video filter used (none when no subtitles). -/
def runPipelineV1 (cwd : Str) (env : Env) (req : Req) :
    Outcome × List Str × Option Str :=
  if !req.hasFile then (Outcome.noFile, [], none)
  else
    let pfx := natRepr req.ts
    let ip := inputPath cwd pfx req.fileName
    let op := outputPath cwd pfx req.fileName
    if !env.writeInputOk then (Outcome.serverError, [], none)
    else
      if srtTruthy req.srtContent then
        if !env.writeSrtOk then
          (Outcome.serverError, remainingFiles ⟨some ip, none, none, none⟩, none)
        else
          let filt := v1SubtitleFilter (srtPathOf cwd pfx)
            (fontPath cwd (effectiveFontName req.fontName))
          if env.encodeOk then
            if env.readOutputOk then (Outcome.delivered, [], some filt)
            else
              (Outcome.readError,
                remainingFiles ⟨some ip, some (srtPathOf cwd pfx), none, some op⟩,
                some filt)
          else (Outcome.encodeError, [], some filt)
      else
        if env.encodeOk then
          if env.readOutputOk then (Outcome.delivered, [], none)
          else (Outcome.readError, remainingFiles ⟨some ip, none, none, some op⟩, none)
        else (Outcome.encodeError, [], none)

set_option maxRecDepth 4096 in
/-- Counterexample for C6: the plain string `toString` is not a key of the
font registry, yet the request's subtitle-burn filter does not carry the
default font's path — the bracket access hits the member inherited from
`Object.prototype`, which is truthy, so `|| fontMap['Roboto']` never acts and
the stringified function is spliced into `FontFile=`.  The request still
reaches `Delivered`. -/
theorem fontPath_proto_member :
    (fontMap "/app".data).lookup "toString".data = none ∧
    fontPath "/app".data "toString".data ≠ robotoFontPath "/app".data ∧
    (runPipelineV1 "/app".data ⟨true, true, [], none, true, true, true⟩
        ⟨true, "a.mp4".data, some "x".data, "toString".data, false, 7⟩).1 =
      Outcome.delivered ∧
    (runPipelineV1 "/app".data ⟨true, true, [], none, true, true, true⟩
        ⟨true, "a.mp4".data, some "x".data, "toString".data, false, 7⟩).2.2 =
      some (v1SubtitleFilter (srtPathOf "/app".data (natRepr 7))
        (protoMemberString "toString".data)) := by
  refine ⟨by decide, by decide, by decide, by decide⟩

/-- C6 amended: a `fontName` that is neither a key of the registry nor the
name of a member inherited from `Object.prototype` resolves to the default
(Roboto) font path, the subtitle-burn filter uses that default path, and the
otherwise-valid request still reaches `Delivered` — the font lookup never
fails a request (inherited member names also deliver, but with the truthy
inherited member spliced in instead of the default path). -/
theorem unknown_font_falls_back (cwd : Str) (env : Env) (req : Req) (s : Str)
    (hfile : req.hasFile = true) (hsrt : req.srtContent = some s)
    (hne : s.isEmpty = false)
    (hfont : (fontMap cwd).lookup req.fontName = none)
    (hproto : req.fontName ∉ objectProtoKeys)
    (hfne : req.fontName.isEmpty = false)
    (h1 : env.writeInputOk = true) (h2 : env.writeSrtOk = true)
    (h3 : env.encodeOk = true) (h4 : env.readOutputOk = true) :
    fontPath cwd req.fontName = robotoFontPath cwd ∧
    (runPipelineV1 cwd env req).1 = Outcome.delivered ∧
    (runPipelineV1 cwd env req).2.2 =
      some (v1SubtitleFilter (srtPathOf cwd (natRepr req.ts))
        (robotoFontPath cwd)) := by
  have hst : srtTruthy req.srtContent = true := by simp [srtTruthy, hsrt, hne]
  have hfp : fontPath cwd req.fontName = robotoFontPath cwd := by
    simp [fontPath, hfont, hproto]
  have heff : effectiveFontName req.fontName = req.fontName := by
    simp [effectiveFontName, hfne]
  refine ⟨hfp, ?_, ?_⟩ <;>
    simp [runPipelineV1, hfile, hst, h1, h2, h3, h4, heff, hfp]

/-- Witness for the amended C6 with the unknown font name `Comic Sans`. -/
theorem unknown_font_falls_back_witness :
    fontPath "/app".data "Comic Sans".data = robotoFontPath "/app".data ∧
    (runPipelineV1 "/app".data ⟨true, true, [], none, true, true, true⟩
        ⟨true, "a.mp4".data, some "x".data, "Comic Sans".data, false, 7⟩).1 =
      Outcome.delivered ∧
    (runPipelineV1 "/app".data ⟨true, true, [], none, true, true, true⟩
        ⟨true, "a.mp4".data, some "x".data, "Comic Sans".data, false, 7⟩).2.2 =
      some (v1SubtitleFilter (srtPathOf "/app".data (natRepr 7))
        (robotoFontPath "/app".data)) :=
  unknown_font_falls_back "/app".data
    ⟨true, true, [], none, true, true, true⟩
    ⟨true, "a.mp4".data, some "x".data, "Comic Sans".data, false, 7⟩
    "x".data rfl rfl (by decide) (by decide) (by decide) (by decide) rfl rfl rfl rfl

end VideoAuto
